import Mathlib

/-!
Verification development for the OrangeFeedBot repository.

The development shallow-embeds the poll/fetch core of the program:

* `pullLoop` / `pullStatuses` embed the cursor-pagination loop of
  `Client.PullStatuses` (src/internal/truthsocial/client.go, lines 266-360).
  The remote server is a parameter `server : String -> Option (List Status)`
  mapping a `max_id` cursor (`""` = absent) to either a decoded page
  (`some page`) or a transport/decode failure (`none`).  The Go loop
  increments `pageCounter` on every non-empty page and exits once
  `pageCounter > 50`, so it performs at most 51 page fetches; the model
  carries fuel 51 which is shown to be sufficient.

* `processLoop` / `checkForNewPostsOFB` embed
  `OrangeFeedBot.checkForNewPosts` (src/unnamed/part_001, lines 151-203):
  scan the newest-first window, stop at the watermark id, skip items whose
  cleaned content is shorter than 10 characters, skip items whose analysis
  fails, send the rest, and advance the watermark to `statuses[0].ID` only
  when `newPostsCount > 0`.

* `processLoopBot` / `checkForNewPostsBot` embed `Bot.checkForNewPosts`
  (src/cmd/main.go, lines 132-163): same scan without the length filter,
  and the watermark is advanced to `posts[0].ID` unconditionally whenever
  the fetched window is non-empty.

* `fetchUserPosts` embeds `TruthSocialScraper.FetchUserPosts`
  (src/internal/scraper/truthsocial.go, lines 37-52).

* `runOFB` / `runBot` iterate poll cycles against a feed that grows by
  prepending newer items (newest-first representation), each cycle fetching
  the `k` newest items of the current feed.
-/

namespace OrangeFeed

/-- A Truth Social post as far as the poll loop inspects it: `Status.ID`
and `Status.Content` (src/internal/truthsocial/client.go, lines 67-94). -/
structure Status where
  id : String
  content : String
deriving DecidableEq, Repr

/-- The id of the last element of the non-empty list `s :: l`; embeds
`statuses[len(statuses)-1].ID` used as the next `max_id` cursor
(src/internal/truthsocial/client.go, lines 344-348). -/
def lastId (s : Status) : List Status → String
  | [] => s.id
  | t :: ts => lastId t ts

/-- The page loop of `Client.PullStatuses`
(src/internal/truthsocial/client.go, lines 277-357).  Arguments mirror the
Go locals: `maxID` cursor, `allStatuses` accumulator, `pageCounter`.
Returns `(result, fetches)` where `fetches` counts server page requests.
`server m = none` models a non-success HTTP status or an undecodable body.
The fuel argument is a modelling device only; `pullLoop_fuel_irrelevant`
shows fuel `51 - pageCounter` is never exhausted. -/
def pullLoop (server : String → Option (List Status)) (limit : Int)
    (maxID : String) (allStatuses : List Status) (pageCounter : Nat) :
    Nat → Option (List Status) × Nat
  | 0 => (none, 0)
  | fuel + 1 =>
    match server maxID with
    | none => (none, 1)
    | some [] => (some allStatuses, 1)
    | some (s :: rest) =>
      let acc := allStatuses ++ s :: rest
      let pc := pageCounter + 1
      if 0 < limit ∧ limit ≤ (acc.length : Int) then
        (some (acc.take limit.toNat), 1)
      else
        if pc > 50 then (some acc, 1)
        else
          let r := pullLoop server limit (lastId s rest) acc pc fuel
          (r.1, r.2 + 1)

/-- Embedding of `Client.PullStatuses` after the account lookup
(src/internal/truthsocial/client.go, lines 266-360): `lookup = none` models
a failed `Lookup` call, in which case no page is fetched. -/
def pullStatuses (lookup : Option Unit) (server : String → Option (List Status))
    (limit : Int) : Option (List Status) × Nat :=
  match lookup with
  | none => (none, 0)
  | some _ => pullLoop server limit "" [] 0 51

/-- The number of page fetches performed is bounded by the fuel. -/
theorem pullLoop_fetches_le_fuel (server : String → Option (List Status))
    (limit : Int) :
    ∀ (fuel : Nat) (maxID : String) (acc : List Status) (pc : Nat),
      (pullLoop server limit maxID acc pc fuel).2 ≤ fuel := by
  intro fuel
  induction fuel with
  | zero => intro maxID acc pc; simp [pullLoop]
  | succ n ih =>
    intro maxID acc pc
    simp only [pullLoop]
    cases h : server maxID with
    | none => simp
    | some page =>
      cases page with
      | nil => simp
      | cons s rest =>
        simp only []
        split
        · simp
        · split
          · simp
          · simpa using Nat.succ_le_succ (ih _ _ _)

/-- Fuel sufficiency: as long as `pageCounter ≤ 50` and more fuel remains
than the `pageCounter > 50` exit can consume, a `none` result can only come
from a failed page fetch, never from fuel exhaustion. -/
theorem pullLoop_fuel_irrelevant (server : String → Option (List Status))
    (limit : Int) :
    ∀ (fuel : Nat) (maxID : String) (acc : List Status) (pc : Nat),
      pc ≤ 50 → 50 < pc + fuel →
      (pullLoop server limit maxID acc pc fuel).1 = none →
      ∃ m, server m = none := by
  intro fuel
  induction fuel with
  | zero => intro maxID acc pc hle hlt; omega
  | succ n ih =>
    intro maxID acc pc hle hlt hnone
    simp only [pullLoop] at hnone
    cases h : server maxID with
    | none => exact ⟨maxID, h⟩
    | some page =>
      rw [h] at hnone
      cases page with
      | nil => simp at hnone
      | cons s rest =>
        simp only [] at hnone
        split at hnone
        · simp at hnone
        · split at hnone
          · simp at hnone
          · rename_i hpc
            exact ih _ _ _ (by omega) (by omega) hnone

/-- With `limit ≤ 0` the truncation branch is never taken: whatever has
been accumulated is a prefix of any successful result. -/
theorem pullLoop_no_trunc (server : String → Option (List Status))
    (limit : Int) (hlim : limit ≤ 0) :
    ∀ (fuel : Nat) (maxID : String) (acc : List Status) (pc : Nat)
      (res : List Status) (n : Nat),
      pullLoop server limit maxID acc pc fuel = (some res, n) →
      acc <+: res := by
  intro fuel
  induction fuel with
  | zero => intro maxID acc pc res n h; simp [pullLoop] at h
  | succ m ih =>
    intro maxID acc pc res n h
    simp only [pullLoop] at h
    cases hs : server maxID with
    | none => rw [hs] at h; simp at h
    | some page =>
      rw [hs] at h
      cases page with
      | nil =>
        simp at h
        exact h.1 ▸ List.prefix_refl _
      | cons s rest =>
        simp only [] at h
        split at h
        · rename_i hcond; omega
        · split at h
          · simp at h
            exact h.1 ▸ (List.prefix_append acc (s :: rest))
          · have h1 : (pullLoop server limit (lastId s rest) (acc ++ s :: rest)
                (pc + 1) m).1 = some res := by
              simpa using congrArg Prod.fst h
            have h2 : pullLoop server limit (lastId s rest) (acc ++ s :: rest)
                (pc + 1) m = (some res,
                  (pullLoop server limit (lastId s rest) (acc ++ s :: rest)
                    (pc + 1) m).2) := by
              rw [← h1]
            have hp := ih _ _ _ _ _ h2
            exact (List.prefix_append acc (s :: rest)).trans hp

/-- A post used by the concrete one-item-per-page server behaviour. -/
def onePost (n : Nat) : Status := ⟨"p" ++ toString n, "c"⟩

/-- A server behaviour that answers every page request with a single item:
page `i + 1` is requested with cursor `"p" ++ toString i` and carries the
single item `onePost (i + 1)`, for the first ten pages. -/
def oneServer (m : String) : Option (List Status) :=
  if m = "" then some [onePost 1]
  else if m = "p1" then some [onePost 2]
  else if m = "p2" then some [onePost 3]
  else if m = "p3" then some [onePost 4]
  else if m = "p4" then some [onePost 5]
  else if m = "p5" then some [onePost 6]
  else if m = "p6" then some [onePost 7]
  else if m = "p7" then some [onePost 8]
  else if m = "p8" then some [onePost 9]
  else if m = "p9" then some [onePost 10]
  else some []

/-- The single item repeated by `bigServer`. -/
def xpost : Status := ⟨"x", "c"⟩

/-- A server behaviour whose first page carries `L + 1` copies of `xpost`
and whose every later page is empty. -/
def bigServer (L : Nat) (m : String) : Option (List Status) :=
  if m = "" then some (List.replicate (L + 1) xpost) else some []

theorem lastId_replicate (s : Status) :
    ∀ n : Nat, lastId s (List.replicate n s) = s.id := by
  intro n
  induction n with
  | zero => rfl
  | succ m ih => simpa [List.replicate_succ, lastId] using ih

/-- A scraped post as far as `FetchUserPosts` inspects it
(src/internal/scraper/truthsocial.go, lines 13-19). -/
structure TruthSocialPost where
  id : String
  content : String
deriving DecidableEq, Repr

/-- Embedding of `TruthSocialScraper.FetchUserPosts`
(src/internal/scraper/truthsocial.go, lines 37-52): the outcome of
`fetchRealPosts` is the parameter `real` (`Except.error` = network/parse
failure).  A successful fetch with zero posts is turned into the error
`"no posts found"`. -/
def fetchUserPosts (real : Except String (List TruthSocialPost)) :
    Except String (List TruthSocialPost) :=
  match real with
  | .error e => .error ("failed to fetch real posts: " ++ e)
  | .ok posts =>
    if posts.isEmpty then .error "no posts found" else .ok posts

/-- The downstream environment of `OrangeFeedBot.checkForNewPosts`:
`clean` embeds `b.cleanContent` and `analyzeOk c = true` means
`b.analyzer.AnalyzePost c` returns without error. -/
structure Env where
  clean : String → String
  analyzeOk : String → Bool

/-- Whether a scanned status survives both per-item guards of
`OrangeFeedBot.checkForNewPosts` (src/unnamed/part_001, lines 177-190):
its cleaned content has at least 10 characters and its analysis succeeds. -/
def passOFB (env : Env) (s : Status) : Bool :=
  !decide ((env.clean s.content).length < 10)
    && env.analyzeOk (env.clean s.content)

/-- The scan loop of `OrangeFeedBot.checkForNewPosts`
(src/unnamed/part_001, lines 172-195): stop at the watermark id, skip
short posts, skip posts whose analysis fails, send the rest.  The
returned list is the sequence of statuses handed to `sendAnalysis`, in
order; `newPostsCount` equals its length. -/
def processLoop (env : Env) (last : String) : List Status → List Status
  | [] => []
  | s :: rest =>
    if s.id = last then []
    else
      if (env.clean s.content).length < 10 then processLoop env last rest
      else
        if env.analyzeOk (env.clean s.content) then
          s :: processLoop env last rest
        else processLoop env last rest

/-- The result of the fetch step of a poll cycle:
`fail` models `PullStatuses` returning an error. -/
inductive FetchResult where
  | ok (statuses : List Status)
  | fail

/-- Embedding of `OrangeFeedBot.checkForNewPosts` (part_001, lines
151-203) as a function of the pre-cycle watermark `last` and the fetch
outcome.  Returns the emitted statuses (in emission order) and the
post-cycle watermark: `statuses[0].ID` when `newPostsCount > 0`,
unchanged otherwise. -/
def checkForNewPostsOFB (env : Env) (last : String) :
    FetchResult → List Status × String
  | .fail => ([], last)
  | .ok [] => ([], last)
  | .ok (s :: rest) =>
    let emitted := processLoop env last (s :: rest)
    if emitted.length > 0 then (emitted, s.id) else (emitted, last)

/-- The scan loop of `Bot.checkForNewPosts` (src/cmd/main.go, lines
146-158): stop at the watermark id, skip posts whose analysis fails,
send the rest.  `analyzeOk p = true` means `b.analyzePost p` returns
without error. -/
def processLoopBot (analyzeOk : Status → Bool) (last : String) :
    List Status → List Status
  | [] => []
  | p :: rest =>
    if p.id = last then []
    else
      if analyzeOk p then p :: processLoopBot analyzeOk last rest
      else processLoopBot analyzeOk last rest

/-- Embedding of `Bot.checkForNewPosts` (src/cmd/main.go, 132-163): after the
scan the watermark is set to `posts[0].ID` unconditionally whenever the
fetched window is non-empty. -/
def checkForNewPostsBot (analyzeOk : Status → Bool) (last : String) :
    FetchResult → List Status × String
  | .fail => ([], last)
  | .ok [] => ([], last)
  | .ok (p :: rest) => (processLoopBot analyzeOk last (p :: rest), p.id)

/-- A sequence of poll cycles of `OrangeFeedBot` against a feed (kept
newest-first) that grows by prepending the batch `news` of newer items
before each cycle; each cycle fetches the `k` newest items.  Returns the
per-cycle emitted sequences. -/
def runOFB (env : Env) (k : Nat) :
    String → List Status → List (List Status) → List (List Status)
  | _, _, [] => []
  | last, feed, news :: more =>
    let feed' := news ++ feed
    let step := checkForNewPostsOFB env last (.ok (feed'.take k))
    step.1 :: runOFB env k step.2 feed' more

/-- The same cycle sequence for `Bot` from src/cmd/main.go. -/
def runBot (analyzeOk : Status → Bool) (k : Nat) :
    String → List Status → List (List Status) → List (List Status)
  | _, _, [] => []
  | last, feed, news :: more =>
    let feed' := news ++ feed
    let step := checkForNewPostsBot analyzeOk last (.ok (feed'.take k))
    step.1 :: runBot analyzeOk k step.2 feed' more

/-- The feed obtained after all growth batches have been prepended. -/
def growAll (feed : List Status) : List (List Status) → List Status
  | [] => feed
  | news :: more => growAll (news ++ feed) more

/-- Modelled from the spec (§4.4 step 4, absent from the source): the
emission order the specification prescribes — the scanned new batch
reversed to oldest-of-the-new-batch-first order. -/
def specEmittedOrder (env : Env) (last : String) (window : List Status) :
    List Status :=
  ((window.takeWhile (fun s => !(s.id == last))).filter (passOFB env)).reverse

/-- The scan loop of part_001 is the watermark-bounded prefix of the
window filtered by the two per-item guards. -/
theorem processLoop_eq (env : Env) (last : String) :
    ∀ l : List Status,
      processLoop env last l
        = (l.takeWhile (fun s => !(s.id == last))).filter (passOFB env) := by
  intro l
  induction l with
  | nil => rfl
  | cons s rest ih =>
    by_cases hid : s.id = last
    · simp [processLoop, hid, List.takeWhile_cons]
    · by_cases hlen : (env.clean s.content).length < 10
      · simp [processLoop, hid, hlen, List.takeWhile_cons, passOFB, ih]
      · by_cases hana : env.analyzeOk (env.clean s.content) = true
        · simp [processLoop, hid, hlen, hana, List.takeWhile_cons, passOFB, ih]
        · simp [processLoop, hid, hlen, hana, List.takeWhile_cons, passOFB, ih]

/-- The scan loop of cmd/main.go is the watermark-bounded prefix of the
window filtered by analysis success. -/
theorem processLoopBot_eq (analyzeOk : Status → Bool) (last : String) :
    ∀ l : List Status,
      processLoopBot analyzeOk last l
        = (l.takeWhile (fun s => !(s.id == last))).filter analyzeOk := by
  intro l
  induction l with
  | nil => rfl
  | cons p rest ih =>
    by_cases hid : p.id = last
    · simp [processLoopBot, hid, List.takeWhile_cons]
    · by_cases hana : analyzeOk p = true
      · simp [processLoopBot, hid, hana, List.takeWhile_cons, ih]
      · simp [processLoopBot, hid, hana, List.takeWhile_cons, ih]

/-- Watermark-coverage invariant: the feed splits into a fresh (not yet
scanned) part and an old part; the watermark is absent or the id of the
old part's head, and every previously emitted id lies in the old part. -/
def Covered (last : String) (feed : List Status) (E : List String) : Prop :=
  ∃ fresh old, feed = fresh ++ old ∧
    ((old = [] ∧ last = "") ∨ ∃ o os, old = o :: os ∧ o.id = last) ∧
    ∀ e ∈ E, e ∈ old.map Status.id

/-- The watermark-bounded scan of a window taken from `fresh ++ old`
never reaches into `old`: it is a prefix of `fresh`. -/
theorem scan_prefix_of_fresh (fresh old : List Status) (last : String)
    (k : Nat)
    (hold : (old = [] ∧ last = "") ∨ ∃ o os, old = o :: os ∧ o.id = last)
    (hfresh : ∀ s ∈ fresh, s.id ≠ last) :
    ((fresh ++ old).take k).takeWhile (fun s => !(s.id == last)) <+: fresh := by
  rcases hold with ⟨hnil, _⟩ | ⟨o, os, hcons, hoid⟩
  · subst hnil
    rw [List.append_nil]
    exact (List.takeWhile_prefix _).trans (List.take_prefix k fresh)
  · subst hcons
    rw [List.take_append_eq_append_take]
    by_cases hk : k ≤ fresh.length
    · have h0 : k - fresh.length = 0 := by omega
      rw [h0]
      simp only [List.take_zero, List.append_nil]
      exact (List.takeWhile_prefix _).trans (List.take_prefix k fresh)
    · rw [List.take_of_length_le (by omega)]
      obtain ⟨m, hm⟩ : ∃ m, k - fresh.length = m + 1 :=
        ⟨k - fresh.length - 1, by omega⟩
      rw [hm, List.take_succ_cons]
      rw [List.takeWhile_append_of_pos]
      · rw [List.takeWhile_cons_of_neg]
        · simp
        · simp [hoid]
      · intro a ha
        simpa using hfresh a ha

/-- In the o-headed case of `Covered`, no fresh item carries the
watermark id, because the feed ids are distinct. -/
theorem fresh_id_ne (fresh old : List Status) (last : String)
    (hnodup : ((fresh ++ old).map Status.id).Nodup)
    (hne : ∀ s ∈ fresh ++ old, s.id ≠ "")
    (hold : (old = [] ∧ last = "") ∨ ∃ o os, old = o :: os ∧ o.id = last) :
    ∀ s ∈ fresh, s.id ≠ last := by
  rcases hold with ⟨_, hlast⟩ | ⟨o, os, hcons, hoid⟩
  · intro s hs
    rw [hlast]
    exact hne s (List.mem_append_left _ hs)
  · intro s hs heq
    rw [List.map_append] at hnodup
    have hdisj := (List.nodup_append.mp hnodup).2.2
    refine hdisj (heq ▸ List.mem_map_of_mem Status.id hs) ?_
    rw [hcons, ← hoid]
    simp

theorem checkOFB_fst (env : Env) (last : String) (s : Status)
    (rest : List Status) :
    (checkForNewPostsOFB env last (.ok (s :: rest))).1
      = processLoop env last (s :: rest) := by
  simp only [checkForNewPostsOFB]
  split <;> rfl

theorem take_eq_cons_head {feed : List Status} {k : Nat} {s : Status}
    {rest : List Status} (h : feed.take k = s :: rest) :
    ∃ ftl, feed = s :: ftl := by
  cases feed with
  | nil => simp at h
  | cons f0 ftl =>
    cases k with
    | zero => simp at h
    | succ m =>
      rw [List.take_succ_cons] at h
      exact ⟨ftl, by rw [(List.cons.injEq .. ).mp h |>.1]⟩

/-- One `OrangeFeedBot` cycle with a successful fetch: the emitted ids
are distinct, none was emitted before, and coverage is preserved. -/
theorem stepOFB (env : Env) (k : Nat) (last : String) (feed : List Status)
    (E : List String)
    (hnodup : (feed.map Status.id).Nodup)
    (hne : ∀ s ∈ feed, s.id ≠ "")
    (hcov : Covered last feed E) :
    ((checkForNewPostsOFB env last (.ok (feed.take k))).1.map Status.id).Nodup
    ∧ (∀ x ∈ (checkForNewPostsOFB env last
        (.ok (feed.take k))).1.map Status.id, x ∉ E)
    ∧ Covered (checkForNewPostsOFB env last (.ok (feed.take k))).2 feed
        ((checkForNewPostsOFB env last
          (.ok (feed.take k))).1.map Status.id ++ E) := by
  obtain ⟨fresh, old, hsplit, hold, hE⟩ := hcov
  cases hw : feed.take k with
  | nil =>
    simp only [checkForNewPostsOFB]
    exact ⟨List.nodup_nil, by simp,
      fresh, old, hsplit, hold, fun e he => hE e (by simpa using he)⟩
  | cons s rest =>
    have hfresh : ∀ x ∈ fresh, x.id ≠ last :=
      fresh_id_ne fresh old last (by rw [← hsplit]; exact hnodup)
        (by rw [← hsplit]; exact hne) hold
    have hscan : (s :: rest).takeWhile (fun x => !(x.id == last)) <+: fresh := by
      rw [← hw, hsplit]
      exact scan_prefix_of_fresh fresh old last k hold hfresh
    have hem : (checkForNewPostsOFB env last (.ok (s :: rest))).1
        = ((s :: rest).takeWhile (fun x => !(x.id == last))).filter
            (passOFB env) := by
      rw [checkOFB_fst, processLoop_eq]
    have hsub : List.Sublist
        (checkForNewPostsOFB env last (.ok (s :: rest))).1 fresh := by
      rw [hem]
      exact (List.filter_sublist _).trans hscan.sublist
    have hfreshfeed : List.Sublist fresh feed := by
      rw [hsplit]
      exact List.sublist_append_left fresh old
    have hsubfeed := hsub.trans hfreshfeed
    have hdisj : (List.map Status.id fresh).Disjoint
        (List.map Status.id old) := by
      rw [hsplit, List.map_append] at hnodup
      exact (List.nodup_append.mp hnodup).2.2
    refine ⟨hnodup.sublist (hsubfeed.map Status.id), ?_, ?_⟩
    · intro x hx hxE
      have hxf : x ∈ List.map Status.id fresh :=
        (hsub.map Status.id).subset hx
      exact hdisj hxf (hE x hxE)
    · obtain ⟨ftl, hfeed⟩ := take_eq_cons_head hw
      by_cases hpos :
          0 < (processLoop env last (s :: rest)).length
      · have hsnd : (checkForNewPostsOFB env last (.ok (s :: rest))).2
            = s.id := by
          simp only [checkForNewPostsOFB]
          rw [if_pos hpos]
        rw [hsnd]
        refine ⟨[], feed, (List.nil_append feed).symm,
          Or.inr ⟨s, ftl, hfeed, rfl⟩, ?_⟩
        intro e he
        rcases List.mem_append.mp he with hl | hr
        · exact (hsubfeed.map Status.id).subset hl
        · rw [hsplit, List.map_append]
          exact List.mem_append_right _ (hE e hr)
      · have hsnd : (checkForNewPostsOFB env last (.ok (s :: rest))).2
            = last := by
          simp only [checkForNewPostsOFB]
          rw [if_neg hpos]
        have hemp : (checkForNewPostsOFB env last (.ok (s :: rest))).1
            = [] := by
          rw [checkOFB_fst]
          exact List.length_eq_zero.mp (by omega)
        rw [hsnd]
        exact ⟨fresh, old, hsplit, hold,
          fun e he => hE e (by rw [hemp] at he; simpa using he)⟩

/-- One `Bot` (cmd/main.go) cycle with a successful fetch: same
conclusions; the watermark moves to the window head unconditionally. -/
theorem stepBot (analyzeOk : Status → Bool) (k : Nat) (last : String)
    (feed : List Status) (E : List String)
    (hnodup : (feed.map Status.id).Nodup)
    (hne : ∀ s ∈ feed, s.id ≠ "")
    (hcov : Covered last feed E) :
    ((checkForNewPostsBot analyzeOk last
        (.ok (feed.take k))).1.map Status.id).Nodup
    ∧ (∀ x ∈ (checkForNewPostsBot analyzeOk last
        (.ok (feed.take k))).1.map Status.id, x ∉ E)
    ∧ Covered (checkForNewPostsBot analyzeOk last (.ok (feed.take k))).2 feed
        ((checkForNewPostsBot analyzeOk last
          (.ok (feed.take k))).1.map Status.id ++ E) := by
  obtain ⟨fresh, old, hsplit, hold, hE⟩ := hcov
  cases hw : feed.take k with
  | nil =>
    simp only [checkForNewPostsBot]
    exact ⟨List.nodup_nil, by simp,
      fresh, old, hsplit, hold, fun e he => hE e (by simpa using he)⟩
  | cons s rest =>
    have hfresh : ∀ x ∈ fresh, x.id ≠ last :=
      fresh_id_ne fresh old last (by rw [← hsplit]; exact hnodup)
        (by rw [← hsplit]; exact hne) hold
    have hscan : (s :: rest).takeWhile (fun x => !(x.id == last)) <+: fresh := by
      rw [← hw, hsplit]
      exact scan_prefix_of_fresh fresh old last k hold hfresh
    have hem : (checkForNewPostsBot analyzeOk last (.ok (s :: rest))).1
        = ((s :: rest).takeWhile (fun x => !(x.id == last))).filter
            analyzeOk := by
      simp only [checkForNewPostsBot]
      rw [processLoopBot_eq]
    have hsub : List.Sublist
        (checkForNewPostsBot analyzeOk last (.ok (s :: rest))).1 fresh := by
      rw [hem]
      exact (List.filter_sublist _).trans hscan.sublist
    have hfreshfeed : List.Sublist fresh feed := by
      rw [hsplit]
      exact List.sublist_append_left fresh old
    have hsubfeed := hsub.trans hfreshfeed
    have hdisj : (List.map Status.id fresh).Disjoint
        (List.map Status.id old) := by
      rw [hsplit, List.map_append] at hnodup
      exact (List.nodup_append.mp hnodup).2.2
    refine ⟨hnodup.sublist (hsubfeed.map Status.id), ?_, ?_⟩
    · intro x hx hxE
      have hxf : x ∈ List.map Status.id fresh :=
        (hsub.map Status.id).subset hx
      exact hdisj hxf (hE x hxE)
    · obtain ⟨ftl, hfeed⟩ := take_eq_cons_head hw
      have hsnd : (checkForNewPostsBot analyzeOk last (.ok (s :: rest))).2
          = s.id := rfl
      rw [hsnd]
      refine ⟨[], feed, (List.nil_append feed).symm,
        Or.inr ⟨s, ftl, hfeed, rfl⟩, ?_⟩
      intro e he
      rcases List.mem_append.mp he with hl | hr
      · exact (hsubfeed.map Status.id).subset hl
      · rw [hsplit, List.map_append]
        exact List.mem_append_right _ (hE e hr)

theorem Covered_grow (last : String) (feed news : List Status)
    (E : List String) (h : Covered last feed E) :
    Covered last (news ++ feed) E := by
  obtain ⟨fresh, old, hsplit, hold, hE⟩ := h
  exact ⟨news ++ fresh, old, by rw [hsplit, List.append_assoc], hold, hE⟩

theorem growAll_suffix :
    ∀ (batches : List (List Status)) (feed : List Status),
      feed <:+ growAll feed batches := by
  intro batches
  induction batches with
  | nil => intro feed; exact List.suffix_refl feed
  | cons news more ih =>
    intro feed
    exact (List.suffix_append news feed).trans (ih (news ++ feed))

/-- Run invariant for `OrangeFeedBot`: over any sequence of growth
batches, the ids emitted by `runOFB` are pairwise distinct and disjoint
from every id already covered by the watermark. -/
theorem runOFB_aux (env : Env) (k : Nat) :
    ∀ (batches : List (List Status)) (last : String) (feed : List Status)
      (E : List String),
      ((growAll feed batches).map Status.id).Nodup →
      (∀ s ∈ growAll feed batches, s.id ≠ "") →
      Covered last feed E →
      (((runOFB env k last feed batches).flatten.map Status.id).Nodup
       ∧ ∀ x ∈ (runOFB env k last feed batches).flatten.map Status.id,
          x ∉ E) := by
  intro batches
  induction batches with
  | nil =>
    intro last feed E hnodup hne hcov
    simp [runOFB]
  | cons news more ih =>
    intro last feed E hnodup hne hcov
    have hgrow : growAll feed (news :: more) = growAll (news ++ feed) more :=
      rfl
    rw [hgrow] at hnodup hne
    have hsuf : (news ++ feed) <:+ growAll (news ++ feed) more :=
      growAll_suffix more (news ++ feed)
    have hnodup' : ((news ++ feed).map Status.id).Nodup :=
      hnodup.sublist (hsuf.sublist.map Status.id)
    have hne' : ∀ s ∈ news ++ feed, s.id ≠ "" :=
      fun s hs => hne s (hsuf.subset hs)
    have hcov' : Covered last (news ++ feed) E := Covered_grow _ _ _ _ hcov
    obtain ⟨hnd1, hdisj1, hcov2⟩ :=
      stepOFB env k last (news ++ feed) E hnodup' hne' hcov'
    obtain ⟨hnd2, hdisj2⟩ := ih
      (checkForNewPostsOFB env last (.ok ((news ++ feed).take k))).2
      (news ++ feed)
      ((checkForNewPostsOFB env last
        (.ok ((news ++ feed).take k))).1.map Status.id ++ E)
      hnodup hne hcov2
    constructor
    · rw [runOFB]
      simp only [List.flatten_cons, List.map_append]
      rw [List.nodup_append]
      refine ⟨hnd1, hnd2, ?_⟩
      intro x hx hx2
      exact hdisj2 x hx2 (List.mem_append_left _ hx)
    · intro x hx hxE
      rw [runOFB] at hx
      simp only [List.flatten_cons, List.map_append, List.mem_append] at hx
      rcases hx with hx | hx
      · exact hdisj1 x hx hxE
      · exact hdisj2 x hx (List.mem_append_right _ hxE)

/-- Run invariant for `Bot` (cmd/main.go): same statement as
`runOFB_aux`. -/
theorem runBot_aux (analyzeOk : Status → Bool) (k : Nat) :
    ∀ (batches : List (List Status)) (last : String) (feed : List Status)
      (E : List String),
      ((growAll feed batches).map Status.id).Nodup →
      (∀ s ∈ growAll feed batches, s.id ≠ "") →
      Covered last feed E →
      (((runBot analyzeOk k last feed batches).flatten.map Status.id).Nodup
       ∧ ∀ x ∈ (runBot analyzeOk k last feed batches).flatten.map Status.id,
          x ∉ E) := by
  intro batches
  induction batches with
  | nil =>
    intro last feed E hnodup hne hcov
    simp [runBot]
  | cons news more ih =>
    intro last feed E hnodup hne hcov
    have hgrow : growAll feed (news :: more) = growAll (news ++ feed) more :=
      rfl
    rw [hgrow] at hnodup hne
    have hsuf : (news ++ feed) <:+ growAll (news ++ feed) more :=
      growAll_suffix more (news ++ feed)
    have hnodup' : ((news ++ feed).map Status.id).Nodup :=
      hnodup.sublist (hsuf.sublist.map Status.id)
    have hne' : ∀ s ∈ news ++ feed, s.id ≠ "" :=
      fun s hs => hne s (hsuf.subset hs)
    have hcov' : Covered last (news ++ feed) E := Covered_grow _ _ _ _ hcov
    obtain ⟨hnd1, hdisj1, hcov2⟩ :=
      stepBot analyzeOk k last (news ++ feed) E hnodup' hne' hcov'
    obtain ⟨hnd2, hdisj2⟩ := ih
      (checkForNewPostsBot analyzeOk last (.ok ((news ++ feed).take k))).2
      (news ++ feed)
      ((checkForNewPostsBot analyzeOk last
        (.ok ((news ++ feed).take k))).1.map Status.id ++ E)
      hnodup hne hcov2
    constructor
    · rw [runBot]
      simp only [List.flatten_cons, List.map_append]
      rw [List.nodup_append]
      refine ⟨hnd1, hnd2, ?_⟩
      intro x hx hx2
      exact hdisj2 x hx2 (List.mem_append_left _ hx)
    · intro x hx hxE
      rw [runBot] at hx
      simp only [List.flatten_cons, List.map_append, List.mem_append] at hx
      rcases hx with hx | hx
      · exact hdisj1 x hx hxE
      · exact hdisj2 x hx (List.mem_append_right _ hxE)

/-- A status with the given id and a 10-character content, so that it
passes the minimum-length filter of part_001. -/
def idOnly (i : String) : Status := ⟨i, "0123456789"⟩

/-- A status whose content is shorter than 10 characters. -/
def shortPost : Status := ⟨"n", "hi"⟩

/-- A concrete downstream environment: cleaning is the identity and
every analysis call succeeds. -/
def env0 : Env := ⟨fun s => s, fun _ => true⟩

/-- A concrete downstream environment in which every analysis call
fails. -/
def envNoAna : Env := ⟨fun s => s, fun _ => false⟩

/-- The watermark-bounded scan takes exactly the fresh batch when the
batch fits in the window and the watermark heads the old part. -/
theorem scan_eq_news (news : List Status) (o : Status) (os : List Status)
    (k : Nat) (hlen : news.length ≤ k)
    (hfresh : ∀ a ∈ news, a.id ≠ o.id) :
    ((news ++ o :: os).take k).takeWhile (fun s => !(s.id == o.id)) = news := by
  rw [List.take_append_eq_append_take, List.take_of_length_le hlen,
    List.takeWhile_append_of_pos (by intro a ha; simpa using hfresh a ha)]
  cases hd : k - news.length with
  | zero => simp
  | succ m =>
    rw [List.take_succ_cons, List.takeWhile_cons_of_neg (by simp)]
    simp

/-- C1: across any sequence of poll cycles against a feed that grows by
appending newer items, with every per-item analysis call succeeding, no
item id is emitted twice — for both `OrangeFeedBot.checkForNewPosts`
(part_001) and `Bot.checkForNewPosts` (cmd/main.go). -/
theorem c1_no_duplicate_emission (env : Env) (analyzeOk : Status → Bool)
    (k : Nat) (batches : List (List Status))
    (hok : ∀ c, env.analyzeOk c = true)
    (hokB : ∀ p, analyzeOk p = true)
    (hnodup : ((growAll [] batches).map Status.id).Nodup)
    (hne : ∀ s ∈ growAll [] batches, s.id ≠ "") :
    ((runOFB env k "" [] batches).flatten.map Status.id).Nodup
    ∧ ((runBot analyzeOk k "" [] batches).flatten.map Status.id).Nodup := by
  have hcov : Covered "" ([] : List Status) [] :=
    ⟨[], [], rfl, Or.inl ⟨rfl, rfl⟩, by simp⟩
  exact ⟨(runOFB_aux env k batches "" [] [] hnodup hne hcov).1,
         (runBot_aux analyzeOk k batches "" [] [] hnodup hne hcov).1⟩

/-- Witness for C1 at a concrete two-cycle growth sequence. -/
theorem c1_no_duplicate_emission_witness :
    (((growAll [] [[idOnly "b"], [idOnly "c"]]).map Status.id).Nodup
      ∧ ∀ s ∈ growAll [] [[idOnly "b"], [idOnly "c"]], s.id ≠ "")
    ∧ (((runOFB env0 10 "" [] [[idOnly "b"], [idOnly "c"]]).flatten.map
          Status.id).Nodup
       ∧ ((runBot (fun _ => true) 10 "" []
          [[idOnly "b"], [idOnly "c"]]).flatten.map Status.id).Nodup) :=
  ⟨⟨by decide, by decide⟩,
    c1_no_duplicate_emission env0 (fun _ => true) 10
      [[idOnly "b"], [idOnly "c"]] (fun _ => rfl) (fun _ => rfl)
      (by decide) (by decide)⟩

/-- C2 counterexample: the feed grew by one item (`shortPost`, content
shorter than 10 characters) since the watermark `"a"`, every analysis
call succeeds (`env0`), yet the cycle emits that item zero times, not
exactly once — part_001 silently skips short posts. -/
theorem c2_short_item_never_emitted :
    List.count "n" ((checkForNewPostsOFB env0 "a"
      (.ok ((shortPost :: [idOnly "a"]).take 10))).1.map Status.id) = 0 := by
  decide

/-- Membership in a cycle's emitted list implies both per-item guards
passed: the emitted list is a filter by `passOFB`. -/
theorem mem_checkOFB_pass (env : Env) (last : String) (w : List Status)
    (x : Status) (hm : x ∈ (checkForNewPostsOFB env last (.ok w)).1) :
    passOFB env x = true := by
  cases w with
  | nil => simp [checkForNewPostsOFB] at hm
  | cons s rest =>
    rw [checkOFB_fst, processLoop_eq] at hm
    exact List.of_mem_filter hm

/-- An item failing a per-item guard is never emitted by any cycle of
any run, from any state. -/
theorem runOFB_no_filtered_emission (env : Env) (k : Nat) (x : Status)
    (hx : passOFB env x = false) :
    ∀ (batches : List (List Status)) (last : String) (feed : List Status),
      x ∉ (runOFB env k last feed batches).flatten := by
  intro batches
  induction batches with
  | nil => intro last feed; simp [runOFB]
  | cons news more ih =>
    intro last feed
    rw [runOFB]
    simp only [List.flatten_cons, List.mem_append]
    rintro (hmem | hmem)
    · have hp := mem_checkOFB_pass env last _ x hmem
      rw [hx] at hp
      simp at hp
    · exact ih _ _ hmem

/-- A cycle over a feed that grew by `news` (at most the window size)
since the watermark emits exactly the guard-passing items of `news`, in
window order. -/
theorem cycle_emits_filter (env : Env) (k : Nat) (news : List Status)
    (o : Status) (os : List Status)
    (hfnodup : ((news ++ o :: os).map Status.id).Nodup)
    (hlen : news.length ≤ k) :
    (checkForNewPostsOFB env o.id (.ok ((news ++ o :: os).take k))).1
      = news.filter (passOFB env) := by
  have hfreshne : ∀ a ∈ news, a.id ≠ o.id := by
    intro a ha heq
    rw [List.map_append] at hfnodup
    have hdisj := (List.nodup_append.mp hfnodup).2.2
    exact hdisj (heq ▸ List.mem_map_of_mem Status.id ha) (by simp)
  have hscan := scan_eq_news news o os k hlen hfreshne
  cases k with
  | zero =>
    have hnil : news = [] := List.length_eq_zero.mp (Nat.le_zero.mp hlen)
    subst hnil
    simp [checkForNewPostsOFB]
  | succ m =>
    obtain ⟨s, rest, hw⟩ : ∃ s rest,
        (news ++ o :: os).take (m + 1) = s :: rest := by
      cases hfeed : news ++ o :: os with
      | nil => exact absurd hfeed (by simp)
      | cons f0 ftl =>
        exact ⟨f0, ftl.take m, by rw [List.take_succ_cons]⟩
    rw [hw, checkOFB_fst, processLoop_eq, ← hw, hscan]

/-- C2 as amended, per item over arbitrary (mixed) new batches: when the
feed grew by `news` (at most the window size) since the watermark, the
cycle emits exactly the guard-passing items of `news`; each passing new
item is emitted exactly once by that cycle and its id never appears in
any later cycle's emission; and an item failing a guard (cleaned content
shorter than 10 characters, or analysis failing) is emitted neither by
this cycle nor by any cycle of any run. -/
theorem c2_no_miss_amended (env : Env) (k : Nat) (news : List Status)
    (o : Status) (os : List Status) (future : List (List Status))
    (hnodup : ((growAll (news ++ o :: os) future).map Status.id).Nodup)
    (hne : ∀ s ∈ growAll (news ++ o :: os) future, s.id ≠ "")
    (hlen : news.length ≤ k) :
    (checkForNewPostsOFB env o.id (.ok ((news ++ o :: os).take k))).1
      = news.filter (passOFB env)
    ∧ (∀ x ∈ news, passOFB env x = true →
        ((checkForNewPostsOFB env o.id
          (.ok ((news ++ o :: os).take k))).1.map Status.id).count x.id = 1)
    ∧ (∀ x ∈ news, passOFB env x = true →
        x.id ∉ (runOFB env k
          (checkForNewPostsOFB env o.id (.ok ((news ++ o :: os).take k))).2
          (news ++ o :: os) future).flatten.map Status.id)
    ∧ (∀ x : Status, passOFB env x = false →
        x ∉ (checkForNewPostsOFB env o.id
          (.ok ((news ++ o :: os).take k))).1
        ∧ ∀ (batches : List (List Status)) (last : String)
            (feed : List Status),
          x ∉ (runOFB env k last feed batches).flatten) := by
  have hsuf : (news ++ o :: os) <:+ growAll (news ++ o :: os) future :=
    growAll_suffix future _
  have hfnodup : ((news ++ o :: os).map Status.id).Nodup :=
    hnodup.sublist (hsuf.sublist.map Status.id)
  have hem := cycle_emits_filter env k news o os hfnodup hlen
  have hfilnodup : ((news.filter (passOFB env)).map Status.id).Nodup := by
    rw [List.map_append] at hfnodup
    exact ((List.nodup_append.mp hfnodup).1).sublist
      ((List.filter_sublist news).map Status.id)
  refine ⟨hem, ?_, ?_, ?_⟩
  · intro x hx hp
    rw [hem]
    exact List.count_eq_one_of_mem hfilnodup
      (List.mem_map_of_mem Status.id (List.mem_filter.mpr ⟨hx, hp⟩))
  · intro x hx hp
    obtain ⟨n0, ntl, rfl⟩ : ∃ n0 ntl, news = n0 :: ntl := by
      cases news with
      | nil => exact absurd hx (by simp)
      | cons a b => exact ⟨a, b, rfl⟩
    obtain ⟨m, rfl⟩ : ∃ m, k = m + 1 := by
      refine ⟨k - 1, ?_⟩
      have h1 : 1 ≤ k := le_trans (by simp) hlen
      omega
    have hw : ((n0 :: ntl) ++ o :: os).take (m + 1)
        = n0 :: ((ntl ++ o :: os).take m) := by
      rw [List.cons_append, List.take_succ_cons]
    have hpos : 0 < (processLoop env o.id
        (n0 :: ((ntl ++ o :: os).take m))).length := by
      rw [← checkOFB_fst, ← hw, hem]
      exact List.length_pos.mpr
        (List.ne_nil_of_mem (List.mem_filter.mpr ⟨hx, hp⟩))
    have hsnd : (checkForNewPostsOFB env o.id
        (.ok (((n0 :: ntl) ++ o :: os).take (m + 1)))).2 = n0.id := by
      rw [hw]
      simp only [checkForNewPostsOFB]
      rw [if_pos hpos]
    rw [hsnd]
    have hcov : Covered n0.id ((n0 :: ntl) ++ o :: os)
        ((n0 :: ntl).map Status.id) := by
      refine ⟨[], (n0 :: ntl) ++ o :: os, rfl,
        Or.inr ⟨n0, ntl ++ o :: os, by simp, rfl⟩, ?_⟩
      intro e he
      rw [List.map_append]
      exact List.mem_append_left _ he
    have haux := runOFB_aux env (m + 1) future n0.id
      ((n0 :: ntl) ++ o :: os) ((n0 :: ntl).map Status.id) hnodup hne hcov
    intro hmem
    exact haux.2 x.id hmem (List.mem_map_of_mem Status.id hx)
  · intro x hxp
    refine ⟨?_, runOFB_no_filtered_emission env k x hxp⟩
    intro hmem
    rw [hem] at hmem
    have hp := List.of_mem_filter hmem
    rw [hxp] at hp
    simp at hp

/-- Witness for C2's amended statement at a mixed batch: the new batch
holds one guard-passing item and one short item. -/
theorem c2_no_miss_amended_witness :
    ((checkForNewPostsOFB env0 (idOnly "a").id
        (.ok ((([idOnly "d", shortPost] ++ idOnly "a" :: []).take 10)))).1
      = [idOnly "d", shortPost].filter (passOFB env0)
    ∧ (∀ x ∈ [idOnly "d", shortPost], passOFB env0 x = true →
        ((checkForNewPostsOFB env0 (idOnly "a").id
          (.ok (([idOnly "d", shortPost]
            ++ idOnly "a" :: []).take 10))).1.map Status.id).count x.id = 1)
    ∧ (∀ x ∈ [idOnly "d", shortPost], passOFB env0 x = true →
        x.id ∉ (runOFB env0 10
          (checkForNewPostsOFB env0 (idOnly "a").id
            (.ok (([idOnly "d", shortPost]
              ++ idOnly "a" :: []).take 10))).2
          ([idOnly "d", shortPost] ++ idOnly "a" :: [])
          [[idOnly "e"]]).flatten.map Status.id)
    ∧ (∀ x : Status, passOFB env0 x = false →
        x ∉ (checkForNewPostsOFB env0 (idOnly "a").id
          (.ok (([idOnly "d", shortPost] ++ idOnly "a" :: []).take 10))).1
        ∧ ∀ (batches : List (List Status)) (last : String)
            (feed : List Status),
          x ∉ (runOFB env0 10 last feed batches).flatten)) :=
  c2_no_miss_amended env0 10 [idOnly "d", shortPost] (idOnly "a") []
    [[idOnly "e"]] (by decide) (by decide) (by decide)

/-- C3 counterexample: on the first cycle over the window `[C, B, A]`
(newest-first) with absent watermark and all guards passing, part_001
emits `[C, B, A]` — the window order — not the reversed
oldest-first order the specification prescribes. -/
theorem c3_emission_not_reversed :
    (checkForNewPostsOFB env0 ""
        (.ok [idOnly "c", idOnly "b", idOnly "a"])).1
      = [idOnly "c", idOnly "b", idOnly "a"]
    ∧ (checkForNewPostsOFB env0 ""
        (.ok [idOnly "c", idOnly "b", idOnly "a"])).1
      ≠ specEmittedOrder env0 "" [idOnly "c", idOnly "b", idOnly "a"] := by
  constructor <;> decide

/-- C3 as amended: the new batch is handed to the downstream handler in
window order (newest first); neither implementation reverses the
scanned prefix before emitting. -/
theorem c3_emitted_in_window_order (env : Env) (analyzeOk : Status → Bool)
    (last : String) (w : List Status) :
    (checkForNewPostsOFB env last (.ok w)).1
      = (w.takeWhile (fun s => !(s.id == last))).filter (passOFB env)
    ∧ (checkForNewPostsBot analyzeOk last (.ok w)).1
      = (w.takeWhile (fun s => !(s.id == last))).filter analyzeOk := by
  constructor
  · cases w with
    | nil => rfl
    | cons s rest => rw [checkOFB_fst, processLoop_eq]
  · cases w with
    | nil => rfl
    | cons p rest =>
      simp only [checkForNewPostsBot]
      rw [processLoopBot_eq]

/-- C4 counterexample: in part_001, when every new item in the batch
fails analysis, `newPostsCount` stays 0 and the watermark is left at its
old value instead of the id of the newest item of the window. -/
theorem c4_watermark_not_advanced :
    (checkForNewPostsOFB envNoAna "a" (.ok [idOnly "b", idOnly "a"])).2 = "a"
    ∧ (idOnly "b").id ≠ "a" := by
  constructor <;> decide

/-- C4 as amended: cmd/main.go sets the watermark to `posts[0].ID`
unconditionally on a non-empty window, while part_001 sets it to
`statuses[0].ID` only when at least one item of the batch was emitted
and leaves it unchanged otherwise. -/
theorem c4_watermark_update (env : Env) (analyzeOk : Status → Bool)
    (last : String) (s : Status) (rest : List Status) :
    (checkForNewPostsBot analyzeOk last (.ok (s :: rest))).2 = s.id
    ∧ (0 < (checkForNewPostsOFB env last (.ok (s :: rest))).1.length →
        (checkForNewPostsOFB env last (.ok (s :: rest))).2 = s.id)
    ∧ ((checkForNewPostsOFB env last (.ok (s :: rest))).1.length = 0 →
        (checkForNewPostsOFB env last (.ok (s :: rest))).2 = last) := by
  refine ⟨rfl, ?_, ?_⟩
  · intro hpos
    rw [checkOFB_fst] at hpos
    simp only [checkForNewPostsOFB]
    rw [if_pos hpos]
  · intro hzero
    rw [checkOFB_fst] at hzero
    simp only [checkForNewPostsOFB]
    rw [if_neg (by omega)]

/-- Witness for C4's amended statement. -/
theorem c4_watermark_update_witness :
    0 < (checkForNewPostsOFB env0 "a" (.ok [idOnly "b", idOnly "a"])).1.length
    ∧ (checkForNewPostsOFB env0 "a" (.ok [idOnly "b", idOnly "a"])).2
        = (idOnly "b").id :=
  ⟨by decide,
    (c4_watermark_update env0 (fun _ => true) "a" (idOnly "b")
      [idOnly "a"]).2.1 (by decide)⟩

/-- C5: a poll cycle whose fetch fails emits nothing and leaves the
watermark exactly as it was, in both implementations; and because the
post-failure state equals the pre-failure state, re-running the cycle
against any unchanged fetch outcome produces the identical result. -/
theorem c5_failed_fetch_no_effect (env : Env) (analyzeOk : Status → Bool)
    (last : String) (f : FetchResult) :
    checkForNewPostsOFB env last .fail = ([], last)
    ∧ checkForNewPostsBot analyzeOk last .fail = ([], last)
    ∧ checkForNewPostsOFB env (checkForNewPostsOFB env last .fail).2 f
        = checkForNewPostsOFB env last f
    ∧ checkForNewPostsBot analyzeOk
        (checkForNewPostsBot analyzeOk last .fail).2 f
        = checkForNewPostsBot analyzeOk last f :=
  ⟨rfl, rfl, rfl, rfl⟩

/-- C6 counterexample: against a server whose pages carry one item each,
`PullStatuses` with `targetCount = 10` performs 10 page fetches, more
than `min 50 (ceil(10/40) + 1) = 2`. -/
theorem c6_fetch_count_exceeds_bound :
    (pullStatuses (some ()) oneServer 10).2 = 10
    ∧ ¬((pullStatuses (some ()) oneServer 10).2 ≤ min 50 ((10 + 39) / 40 + 1)) := by
  constructor <;> decide

/-- C6 as amended: `PullStatuses` always terminates within 51 page
fetches (the `pageCounter > 50` guard runs after the increment, so a
51st fetch is possible); no per-target page bound holds for servers
returning short pages. -/
theorem c6_at_most_51_fetches (lookup : Option Unit)
    (server : String → Option (List Status)) (limit : Int) :
    (pullStatuses lookup server limit).2 ≤ 51 := by
  cases lookup with
  | none => simp [pullStatuses]
  | some u => exact pullLoop_fetches_le_fuel server limit 51 "" [] 0

/-- A server behaviour that keeps answering with the same single item:
`PullStatuses` performs no deduplication, so the item is accumulated
repeatedly. -/
def dupServer (m : String) : Option (List Status) :=
  if m = "" then some [idOnly "d"]
  else if m = "d" then some [idOnly "d"]
  else some []

/-- C7 counterexample: a successful call with `targetCount = 3` against
`dupServer` returns the same id three times — the code never
deduplicates within a call. -/
theorem c7_duplicate_id_in_result :
    (pullStatuses (some ()) dupServer 3).1
      = some [idOnly "d", idOnly "d", idOnly "d"]
    ∧ ¬(([idOnly "d", idOnly "d", idOnly "d"].map Status.id).Nodup) := by
  constructor <;> decide

theorem lastId_mem : ∀ (l : List Status) (s : Status),
    lastId s l ∈ (s :: l).map Status.id := by
  intro l
  induction l with
  | nil => intro s; simp [lastId]
  | cons t ts ih =>
    intro s
    have h := ih t
    simp only [lastId, List.map_cons, List.mem_cons] at h ⊢
    tauto

theorem pairwise_last (newer : String → String → Bool) :
    ∀ (l : List Status) (s : Status),
      ((s :: l).map Status.id).Pairwise (fun a b => newer a b = true) →
      ∀ a ∈ (s :: l).map Status.id,
        a = lastId s l ∨ newer a (lastId s l) = true := by
  intro l
  induction l with
  | nil =>
    intro s _ a ha
    simp only [List.map_cons, List.map_nil, List.mem_singleton] at ha
    exact Or.inl (by rw [ha]; rfl)
  | cons t ts ih =>
    intro s h a ha
    simp only [List.map_cons, List.mem_cons] at ha
    simp only [lastId]
    rcases ha with rfl | ha'
    · exact Or.inr (List.rel_of_pairwise_cons h (lastId_mem ts t))
    · exact ih t (List.Pairwise.of_cons h) a (by simpa using ha')

/-- Sortedness invariant of the page loop under well-behaved `max_id`
pagination: each page strictly newest-first, every item strictly older
than the cursor that requested it, no empty ids. -/
theorem pullLoop_sorted (server : String → Option (List Status))
    (newer : String → String → Bool) (limit : Int)
    (htrans : ∀ a b c, newer a b = true → newer b c = true →
      newer a c = true)
    (hpages : ∀ m page, server m = some page →
      ((page.map Status.id).Pairwise (fun a b => newer a b = true)
       ∧ (m ≠ "" → ∀ x ∈ page, newer m x.id = true)
       ∧ ∀ x ∈ page, x.id ≠ "")) :
    ∀ (fuel : Nat) (maxID : String) (acc : List Status) (pc : Nat)
      (res : List Status) (n : Nat),
      ((acc.map Status.id).Pairwise (fun a b => newer a b = true)) →
      (maxID = "" → acc = []) →
      (maxID ≠ "" → ∀ a ∈ acc.map Status.id,
          a = maxID ∨ newer a maxID = true) →
      (0 < limit → (acc.length : Int) < limit) →
      pullLoop server limit maxID acc pc fuel = (some res, n) →
      ((res.map Status.id).Pairwise (fun a b => newer a b = true)
       ∧ (0 < limit → (res.length : Int) ≤ limit)) := by
  intro fuel
  induction fuel with
  | zero =>
    intro maxID acc pc res n _ _ _ _ h
    simp [pullLoop] at h
  | succ f ih =>
    intro maxID acc pc res n hpw hmax hlink hcap h
    simp only [pullLoop] at h
    cases hs : server maxID with
    | none => rw [hs] at h; simp at h
    | some page =>
      rw [hs] at h
      obtain ⟨hppw, hpold, hpne⟩ := hpages maxID page hs
      cases page with
      | nil =>
        simp at h
        obtain ⟨rfl, _⟩ := h
        exact ⟨hpw, fun hl => le_of_lt (hcap hl)⟩
      | cons s rest =>
        simp only [] at h
        have hcross : ∀ a ∈ acc.map Status.id,
            ∀ b ∈ (s :: rest).map Status.id, newer a b = true := by
          intro a ha b hb
          by_cases hm : maxID = ""
          · rw [hmax hm] at ha; simp at ha
          · obtain ⟨x, hx, rfl⟩ := List.mem_map.mp hb
            have hbx := hpold hm x hx
            rcases hlink hm a ha with rfl | hrel
            · exact hbx
            · exact htrans a maxID x.id hrel hbx
        have hallpw : ((acc ++ s :: rest).map Status.id).Pairwise
            (fun a b => newer a b = true) := by
          rw [List.map_append]
          exact List.pairwise_append.mpr ⟨hpw, hppw, hcross⟩
        split at h
        · rename_i hcond
          simp at h
          obtain ⟨hres, _⟩ := h
          constructor
          · rw [← hres]
            exact hallpw.sublist ((List.take_sublist _ _).map Status.id)
          · intro hl
            rw [← hres]
            simp only [List.length_take]
            omega
        · rename_i hncond
          split at h
          · simp at h
            obtain ⟨hres, _⟩ := h
            refine ⟨by rw [← hres]; exact hallpw, ?_⟩
            intro hl
            rw [← hres]
            have := not_and.mp hncond hl
            simp only [List.length_append, List.length_cons] at this ⊢
            omega
          · have h1 : (pullLoop server limit (lastId s rest)
                (acc ++ s :: rest) (pc + 1) f).1 = some res := by
              simpa using congrArg Prod.fst h
            have h2 : pullLoop server limit (lastId s rest)
                (acc ++ s :: rest) (pc + 1) f = (some res,
                  (pullLoop server limit (lastId s rest)
                    (acc ++ s :: rest) (pc + 1) f).2) := by
              rw [← h1]
            have hlne : lastId s rest ≠ "" := by
              obtain ⟨x, hx, hxid⟩ := List.mem_map.mp (lastId_mem rest s)
              rw [← hxid]
              exact hpne x hx
            refine ih (lastId s rest) (acc ++ s :: rest) (pc + 1) res _
              hallpw (fun h0 => absurd h0 hlne) ?_ ?_ h2
            · intro _ a ha
              rw [List.map_append, List.mem_append] at ha
              rcases ha with ha | ha
              · exact Or.inr (hcross a ha _ (lastId_mem rest s))
              · exact pairwise_last newer rest s hppw a ha
            · intro hl
              have := not_and.mp hncond hl
              simp only [List.length_append, List.length_cons] at this ⊢
              omega

/-- C7 as amended: assuming the server obeys `max_id` pagination (each
page strictly newest-first, each item strictly older than the requesting
cursor, ids non-empty), every successful `PullStatuses` result is
newest-first, free of duplicate ids, and of length at most `targetCount`
when `targetCount > 0`. -/
theorem c7_pull_newest_first_amended (server : String → Option (List Status))
    (newer : String → String → Bool) (limit : Int)
    (htrans : ∀ a b c, newer a b = true → newer b c = true →
      newer a c = true)
    (hirr : ∀ a, newer a a = false)
    (hpages : ∀ m page, server m = some page →
      ((page.map Status.id).Pairwise (fun a b => newer a b = true)
       ∧ (m ≠ "" → ∀ x ∈ page, newer m x.id = true)
       ∧ ∀ x ∈ page, x.id ≠ ""))
    (res : List Status)
    (hres : (pullStatuses (some ()) server limit).1 = some res) :
    ((res.map Status.id).Pairwise (fun a b => newer a b = true)
     ∧ (res.map Status.id).Nodup
     ∧ (0 < limit → (res.length : Int) ≤ limit)) := by
  have h2 : pullLoop server limit "" [] 0 51
      = (some res, (pullLoop server limit "" [] 0 51).2) := by
    have h1 : (pullLoop server limit "" [] 0 51).1 = some res := hres
    rw [← h1]
  have hmain := pullLoop_sorted server newer limit htrans hpages 51 "" [] 0
    res (pullLoop server limit "" [] 0 51).2 (by simp) (fun _ => rfl)
    (fun hff => absurd rfl hff) (by simp) h2
  refine ⟨hmain.1, ?_, hmain.2⟩
  refine List.Pairwise.imp ?_ hmain.1
  intro a b hab heq
  rw [heq, hirr] at hab
  simp at hab

/-- A concrete three-item, two-page `max_id`-paginated server: ids get
strictly shorter going back in time. -/
def cvServer (m : String) : Option (List Status) :=
  if m = "" then some [idOnly "ccc", idOnly "bb"]
  else if m = "bb" then some [idOnly "a"]
  else some []

/-- Witness for C7's amended statement. -/
theorem c7_pull_newest_first_amended_witness :
    (pullStatuses (some ()) cvServer 5).1
      = some [idOnly "ccc", idOnly "bb", idOnly "a"]
    ∧ ((([idOnly "ccc", idOnly "bb", idOnly "a"].map Status.id).Pairwise
        (fun a b => (decide (b.length < a.length)) = true))
      ∧ ([idOnly "ccc", idOnly "bb", idOnly "a"].map Status.id).Nodup
      ∧ (0 < (5 : Int) →
          (([idOnly "ccc", idOnly "bb", idOnly "a"] : List Status).length
            : Int) ≤ 5)) := by
  have hres : (pullStatuses (some ()) cvServer 5).1
      = some [idOnly "ccc", idOnly "bb", idOnly "a"] := by decide
  refine ⟨hres, c7_pull_newest_first_amended cvServer
    (fun a b => decide (b.length < a.length)) 5 ?_ ?_ ?_ _ hres⟩
  · intro a b c h1 h2
    simp only [decide_eq_true_eq] at h1 h2 ⊢
    omega
  · intro a
    simp
  · intro m page h
    simp only [cvServer] at h
    split_ifs at h with h1 h2
    · injection h with h3
      subst h3
      refine ⟨by decide, fun hm => absurd h1 hm, by decide⟩
    · injection h with h3
      subst h3
      subst h2
      refine ⟨by decide, ?_, by decide⟩
      intro _ x hx
      rcases List.mem_singleton.mp hx with rfl
      decide
    · injection h with h3
      subst h3
      refine ⟨by decide, ?_, ?_⟩
      · intro _ x hx
        exact absurd hx (by simp)
      · intro x hx
        exact absurd hx (by simp)

/-- C8 counterexample: `FetchUserPosts` treats a successful fetch that
yields zero posts as an error, not as an empty success. -/
theorem c8_zero_posts_is_error :
    fetchUserPosts (.ok []) = .error "no posts found" := rfl

/-- C8 as amended: in `PullStatuses` an empty first page is a success
returning the empty sequence after one fetch, and a `none` result can
only arise from a failed page fetch (non-success HTTP status or
undecodable body); `FetchUserPosts`, by contrast, raises an error when
zero posts are found (see the counterexample). -/
theorem c8_empty_feed_success (server : String → Option (List Status))
    (limit : Int) (hempty : server "" = some []) :
    pullStatuses (some ()) server limit = (some [], 1)
    ∧ (∀ server2 : String → Option (List Status),
        (pullStatuses (some ()) server2 limit).1 = none →
        ∃ m, server2 m = none) := by
  constructor
  · show pullLoop server limit "" [] 0 (50 + 1) = (some [], 1)
    rw [pullLoop, hempty]
  · intro server2 hnone
    exact pullLoop_fuel_irrelevant server2 limit 51 "" [] 0 (by omega)
      (by omega) hnone

/-- Witness for C8's amended statement. -/
theorem c8_empty_feed_success_witness :
    (fun _ : String => some ([] : List Status)) "" = some []
    ∧ pullStatuses (some ()) (fun _ : String => some ([] : List Status)) 7
        = (some [], 1) :=
  ⟨rfl, (c8_empty_feed_success (fun _ => some []) 7 rfl).1⟩

/-- Helper for C10: a first page that exhausts the feed (the second
fetch returns an empty page) is returned whole when the truncation
condition does not fire. -/
theorem pullLoop_two_pages (server : String → Option (List Status))
    (limit : Int) (s : Status) (rest : List Status) (fuel : Nat)
    (h1 : server "" = some (s :: rest))
    (hcond : ¬(0 < limit ∧ limit ≤ ((s :: rest).length : Int)))
    (h2 : server (lastId s rest) = some []) :
    pullLoop server limit "" [] 0 (fuel + 2) = (some (s :: rest), 2) := by
  show pullLoop server limit "" [] 0 ((fuel + 1) + 1) = (some (s :: rest), 2)
  rw [pullLoop, h1]
  simp only []
  rw [if_neg (by simpa using hcond)]
  rw [if_neg (by omega)]
  rw [pullLoop, h2]
  simp

/-- C10: with `limit ≤ 0` the truncation branch is never taken — a
first page of arbitrary size `L + 1` followed by an empty page is
returned in full (so no upper cap on the result length exists), and in
general everything accumulated is a prefix of any successful result. -/
theorem c10_no_cap_for_nonpositive_limit :
    (∀ L : Nat, pullStatuses (some ()) (bigServer L) 0
        = (some (List.replicate (L + 1) xpost), 2)
      ∧ (List.replicate (L + 1) xpost).length = L + 1)
    ∧ (∀ (server : String → Option (List Status)) (limit : Int)
        (fuel : Nat) (m : String) (acc res : List Status) (pc n : Nat),
        limit ≤ 0 →
        pullLoop server limit m acc pc fuel = (some res, n) →
        acc <+: res) := by
  constructor
  · intro L
    constructor
    · show pullLoop (bigServer L) 0 "" [] 0 (49 + 2)
        = (some (List.replicate (L + 1) xpost), 2)
      rw [List.replicate_succ]
      refine pullLoop_two_pages (bigServer L) 0 xpost
        (List.replicate L xpost) 49 ?_ (by simp) ?_
      · simp [bigServer, List.replicate_succ]
      · rw [lastId_replicate]
        simp [bigServer, xpost]
    · simp
  · intro server limit fuel m acc res pc n hlim heq
    exact pullLoop_no_trunc server limit hlim fuel m acc pc res n heq

/-- Witness for C10 at a concrete one-item feed. -/
theorem c10_no_cap_witness :
    ((0 : Int) ≤ 0)
    ∧ ([] : List Status) <+: List.replicate 1 xpost :=
  ⟨le_refl 0,
    c10_no_cap_for_nonpositive_limit.2 (bigServer 0) 0 51 "" []
      (List.replicate 1 xpost) 0 2 (le_refl 0) (by decide)⟩

end OrangeFeed
